import Mathlib

set_option linter.unusedVariables false

/-!
Verification of the slot-reservation-engine repository.

Part 1 embeds the code that is present under `src/` (the `SlotService`
string-array registry and the admin/queue controller endpoints).
Part 2 models the reservation core (state machine, wait queue, expiration)
whose module is described by the spec and README but whose source is not
under `src/`; those definitions are marked `Modelled from the spec:`.
-/

namespace SlotService

/-- The initial slot list of `SlotService`:
`private slots = ['Slot 1', 'Slot 2', 'Slot 3'];`. -/
def initialSlots : List String := ["Slot 1", "Slot 2", "Slot 3"]

/-- JavaScript `a || b` for `a` an indexing result: `undefined` (here `none`)
and the empty string are falsy, any other string is truthy. -/
def jsOrElse (a : Option String) (b : String) : String :=
  match a with
  | some s => if s = "" then b else s
  | none => b

/-- Source: `getAllSlots(): string[]` returns `this.slots`. -/
def getAllSlots (slots : List String) : List String := slots

/-- Source: `getSlotById(id: number): string` returns `this.slots[id] || 'Slot not found'`. -/
def getSlotById (slots : List String) (id : Nat) : String :=
  jsOrElse (slots.get? id) "Slot not found"

/-- Source: `addSlot(name: string)` pushes `name` and returns it; the
returned value is paired with the updated slot list. -/
def addSlot (slots : List String) (name : String) : String × List String :=
  (name, slots ++ [name])

/-- States of the `SlotService` slot list reachable from its initial value
through the service's only mutator, `addSlot`. -/
inductive SlotsReachable : List String → Prop where
  | init : SlotsReachable initialSlots
  | add (slots : List String) (name : String) :
      SlotsReachable slots → SlotsReachable (addSlot slots name).2

/-- Source: `SlotController.createSlot()` returns a constant and does not touch the service. -/
def createSlot (slots : List String) : String × List String :=
  ("This action creates a new slot", slots)

/-- Source: `SlotController.updateSlot()` returns a constant and does not touch the service. -/
def updateSlot (slots : List String) : String × List String :=
  ("This action updates a slot", slots)

/-- Source: `SlotController.deleteSlot()` returns a constant and does not touch the service. -/
def deleteSlot (slots : List String) : String × List String :=
  ("This action deletes a slot", slots)

/-- Source: `QueueController.joinQueue(slotId, req)` only returns an empty
template string; no service is called, no state is touched. -/
def joinQueue {σ ρ : Type} (slotId : String) (req : ρ) (st : σ) : String × σ :=
  ("", st)

/-- Source: `QueueController.leaveQueue(slotId, req)` returns `''` and touches nothing. -/
def leaveQueue {σ ρ : Type} (slotId : String) (req : ρ) (st : σ) : String × σ :=
  ("", st)

/-- Source: `QueueController.getQueuePosition(slotId, req)` returns `''` and touches nothing. -/
def getQueuePosition {σ ρ : Type} (slotId : String) (req : ρ) (st : σ) : String × σ :=
  ("", st)

end SlotService

namespace Engine

/-- Modelled from the spec: the Booking Attempt lifecycle states of the
Reservation State Machine (the `state-machine` module is not under `src/`). -/
inductive BookingStatus where
  | pending
  | reserved
  | confirmed
  | expired
  | cancelled
  | completed
deriving DecidableEq

/-- Modelled from the spec: EXPIRED, CANCELLED and COMPLETED are terminal. -/
def BookingStatus.isTerminal : BookingStatus → Bool
  | .expired => true
  | .cancelled => true
  | .completed => true
  | _ => false

/-- Modelled from the spec: a Slot record of the Slot Registry. -/
structure Slot where
  slotId : Nat
  startTime : Nat
  endTime : Nat
  capacity : Nat
  bookedCount : Nat
deriving DecidableEq

/-- Modelled from the spec: a Booking Attempt record. -/
structure Booking where
  bookingId : Nat
  userId : Nat
  slotId : Nat
  status : BookingStatus
  reservedAt : Nat
  expiresAt : Nat
deriving DecidableEq

/-- Modelled from the spec: a Wait Queue entry, keyed by `(slotId, userId)`
with `joinedAt` defining the FIFO order. -/
structure QueueEntry where
  slotId : Nat
  userId : Nat
  joinedAt : Nat
deriving DecidableEq

/-- Modelled from the spec: the shared state of the reservation core. -/
structure EngineState where
  slots : List Slot
  bookings : List Booking
  queue : List QueueEntry
  nextId : Nat
deriving DecidableEq

/-- Replace the first element satisfying `q` by its image under `f`
(a row update by primary key). -/
def updateFirst (q : α → Bool) (f : α → α) : List α → List α
  | [] => []
  | x :: xs => if q x then f x :: xs else x :: updateFirst q f xs

def slotMatch (id : Nat) (sl : Slot) : Bool := decide (sl.slotId = id)

def findSlot (slots : List Slot) (id : Nat) : Option Slot :=
  slots.find? (slotMatch id)

def bookingMatch (bid : Nat) (b : Booking) : Bool := decide (b.bookingId = bid)

def findBooking (bs : List Booking) (bid : Nat) : Option Booking :=
  bs.find? (bookingMatch bid)

/-- A Booking Attempt that occupies capacity: RESERVED or CONFIRMED. -/
def isActive (id : Nat) (b : Booking) : Bool :=
  decide (b.slotId = id ∧ (b.status = .reserved ∨ b.status = .confirmed))

/-- Count of RESERVED or CONFIRMED Booking Attempts for a slot. -/
def activeCount (bs : List Booking) (id : Nat) : Nat := bs.countP (isActive id)

/-- Count of Booking Attempts for a slot in one given status. -/
def statusCount (bs : List Booking) (id : Nat) (τ : BookingStatus) : Nat :=
  bs.countP (fun b => decide (b.slotId = id ∧ b.status = τ))

/-- A non-terminal Booking Attempt of one user on one slot. -/
def isOpenAttempt (u s : Nat) (b : Booking) : Bool :=
  decide (b.userId = u ∧ b.slotId = s) && !b.status.isTerminal

def findActive (bs : List Booking) (u s : Nat) : Option Booking :=
  bs.find? (isOpenAttempt u s)

def openCount (bs : List Booking) (u s : Nat) : Nat := bs.countP (isOpenAttempt u s)

/-- Modelled from the spec: insertion into the per-slot ordered Wait Queue,
keyed by `joinedAt` (arrival time), stable for equal times. -/
def insertEntry (e : QueueEntry) : List QueueEntry → List QueueEntry
  | [] => [e]
  | x :: xs =>
    if decide (x.slotId = e.slotId) && decide (e.joinedAt < x.joinedAt) then
      e :: x :: xs
    else
      x :: insertEntry e xs

/-- The users waiting on one slot, in queue order. -/
def queuedUsers (q : List QueueEntry) (s : Nat) : List Nat :=
  (q.filter (fun e => decide (e.slotId = s))).map (fun e => e.userId)

/-- Zero-based rank of a user in a list. -/
def rankOf (u : Nat) : List Nat → Nat
  | [] => 0
  | x :: xs => if x = u then 0 else rankOf u xs + 1

/-- One-based queue position of a user on a slot. -/
def queuePos (q : List QueueEntry) (s u : Nat) : Nat :=
  rankOf u (queuedUsers q s) + 1

/-- Modelled from the spec: `enqueue` is idempotent — at most one entry per
`(slotId, userId)`; a duplicate join keeps the existing entry. -/
def enqueue (q : List QueueEntry) (s u t : Nat) : List QueueEntry :=
  if q.any (fun e => decide (e.slotId = s ∧ e.userId = u)) then q
  else insertEntry ⟨s, u, t⟩ q

/-- Modelled from the spec: `dequeueFront` pops the front entry of one
slot's queue, leaving other slots' entries in place. -/
def dequeueFront (q : List QueueEntry) (s : Nat) : Option (QueueEntry × List QueueEntry) :=
  match q with
  | [] => none
  | x :: xs =>
    if decide (x.slotId = s) then some (x, xs)
    else
      match dequeueFront xs s with
      | none => none
      | some (e, rest) => some (e, x :: rest)

/-- Modelled from the spec: result of the inbound `claim` operation:
`Reserved(bookingId, expiresAt) | Queued(position) | Rejected`. -/
inductive ClaimResult where
  | reserved (bookingId : Nat) (expiresAt : Nat)
  | queued (position : Nat)
  | rejected
deriving DecidableEq

/-- Modelled from the spec: `claim(userId, slotId)` of the Reservation State
Machine. (1) an existing non-terminal attempt is returned unchanged;
(2) a missing or ended slot is rejected; (3) exhausted capacity enqueues the
caller and returns Queued, not an error; (4) otherwise capacity is reserved
and a RESERVED attempt with `expiresAt = now + TTL` is created. The Hold
Store is not modelled separately: the spec allows the registry reservation
itself to serialize capacity. -/
def claim (st : EngineState) (now u s ttl : Nat) : ClaimResult × EngineState :=
  match findActive st.bookings u s with
  | some b => (.reserved b.bookingId b.expiresAt, st)
  | none =>
    match findSlot st.slots s with
    | none => (.rejected, st)
    | some sl =>
      if sl.endTime ≤ now then (.rejected, st)
      else if sl.capacity ≤ sl.bookedCount then
        let q := enqueue st.queue s u now
        (.queued (queuePos q s u), { st with queue := q })
      else
        (.reserved st.nextId (now + ttl),
         { st with
             slots := updateFirst (slotMatch s)
               (fun x => { x with bookedCount := x.bookedCount + 1 }) st.slots,
             bookings := st.bookings ++ [⟨st.nextId, u, s, .reserved, now, now + ttl⟩],
             nextId := st.nextId + 1 })

/-- Modelled from the spec: `releaseCapacity` of the Slot Registry. -/
def releaseCapacity (slots : List Slot) (s : Nat) : List Slot :=
  updateFirst (slotMatch s) (fun x => { x with bookedCount := x.bookedCount - 1 }) slots

/-- Status update of one Booking Attempt row by bookingId. -/
def setStatus (bs : List Booking) (bid : Nat) (τ : BookingStatus) : List Booking :=
  updateFirst (bookingMatch bid) (fun b => { b with status := τ }) bs

/-- Modelled from the spec: the promotion routine — on capacity release,
repeatedly pop the slot's queue front and attempt `claim` for that user
until a claim succeeds or the queue is empty; an ineligible entry is
dropped, never re-enqueued. Fueled by the queue length. -/
def promoteLoop : Nat → EngineState → Nat → Nat → Nat → EngineState
  | 0, st, _, _, _ => st
  | n + 1, st, now, s, ttl =>
    match dequeueFront st.queue s with
    | none => st
    | some (e, rest) =>
      match (claim { st with queue := rest } now e.userId s ttl).1 with
      | .reserved _ _ => (claim { st with queue := rest } now e.userId s ttl).2
      | _ => promoteLoop n (claim { st with queue := rest } now e.userId s ttl).2 now s ttl

def promote (st : EngineState) (now s ttl : Nat) : EngineState :=
  promoteLoop st.queue.length st now s ttl

/-- Modelled from the spec: the shared release path for an expiring RESERVED
attempt — transition to EXPIRED, restore Slot Registry capacity, then run
Wait Queue promotion. Used by both the Scheduler sweep and `confirm`. -/
def expireRelease (st : EngineState) (now ttl : Nat) (b : Booking) : EngineState :=
  promote
    { st with
        bookings := setStatus st.bookings b.bookingId .expired,
        slots := releaseCapacity st.slots b.slotId }
    now b.slotId ttl

inductive ExpireResult where
  | expired
  | skipped
deriving DecidableEq

/-- Modelled from the spec: one Expiration Scheduler action on one booking:
force RESERVED → EXPIRED once TTL has elapsed; idempotent otherwise. -/
def sweepExpire (st : EngineState) (now bid ttl : Nat) : ExpireResult × EngineState :=
  match findBooking st.bookings bid with
  | none => (.skipped, st)
  | some b =>
    if b.status = .reserved ∧ b.expiresAt ≤ now then (.expired, expireRelease st now ttl b)
    else (.skipped, st)

inductive ConfirmResult where
  | confirmed
  | expired
  | invalidTransition
  | notFound
deriving DecidableEq

/-- Modelled from the spec: `confirm(bookingId)` — valid only from RESERVED
with `now < expiresAt`; past the TTL it transitions to EXPIRED through the
same release path as the Scheduler and returns Expired; from any other
status it is rejected with InvalidTransition. -/
def confirm (st : EngineState) (now bid ttl : Nat) : ConfirmResult × EngineState :=
  match findBooking st.bookings bid with
  | none => (.notFound, st)
  | some b =>
    if b.status = .reserved then
      if b.expiresAt ≤ now then (.expired, expireRelease st now ttl b)
      else (.confirmed, { st with bookings := setStatus st.bookings bid .confirmed })
    else (.invalidTransition, st)

inductive CancelResult where
  | cancelled
  | invalidTransition
  | notCancellable
  | notFound
deriving DecidableEq

/-- Modelled from the spec: `cancel(bookingId)` — valid only from CONFIRMED
with `now < slot.startTime`; transitions to CANCELLED, releases capacity and
triggers Wait Queue promotion; from any other status: InvalidTransition. -/
def cancel (st : EngineState) (now bid ttl : Nat) : CancelResult × EngineState :=
  match findBooking st.bookings bid with
  | none => (.notFound, st)
  | some b =>
    if b.status = .confirmed then
      match findSlot st.slots b.slotId with
      | none => (.notCancellable, st)
      | some sl =>
        if sl.startTime ≤ now then (.notCancellable, st)
        else
          (.cancelled,
           promote
             { st with
                 bookings := setStatus st.bookings bid .cancelled,
                 slots := releaseCapacity st.slots b.slotId }
             now b.slotId ttl)
    else (.invalidTransition, st)

inductive CompleteResult where
  | completed
  | skipped
deriving DecidableEq

/-- Modelled from the spec: CONFIRMED → COMPLETED on time advance past the
slot's `endTime`; a no-op otherwise. -/
def complete (st : EngineState) (now bid : Nat) : CompleteResult × EngineState :=
  match findBooking st.bookings bid with
  | none => (.skipped, st)
  | some b =>
    if b.status = .confirmed then
      match findSlot st.slots b.slotId with
      | none => (.skipped, st)
      | some sl =>
        if sl.endTime ≤ now then
          (.completed, { st with bookings := setStatus st.bookings bid .completed })
        else (.skipped, st)
    else (.skipped, st)

/-- A valid initial state: no bookings, empty queue, no booked capacity. -/
def InitOk (st : EngineState) : Prop :=
  st.bookings = [] ∧ st.queue = [] ∧ ∀ sl ∈ st.slots, sl.bookedCount = 0

/-- One step of the reservation core: any inbound operation or background
action at any time with any arguments. -/
inductive Step : EngineState → EngineState → Prop where
  | claimStep (st : EngineState) (now u s ttl : Nat) :
      Step st (claim st now u s ttl).2
  | confirmStep (st : EngineState) (now bid ttl : Nat) :
      Step st (confirm st now bid ttl).2
  | cancelStep (st : EngineState) (now bid ttl : Nat) :
      Step st (cancel st now bid ttl).2
  | sweepStep (st : EngineState) (now bid ttl : Nat) :
      Step st (sweepExpire st now bid ttl).2
  | completeStep (st : EngineState) (now bid : Nat) :
      Step st (complete st now bid).2

/-- Reachability through any interleaving of core operations. -/
inductive Reachable : EngineState → EngineState → Prop where
  | refl (st : EngineState) : Reachable st st
  | step {st st' st'' : EngineState} :
      Reachable st st' → Step st' st'' → Reachable st st''

/-- The capacity invariant carried through the induction: for every slot
visible in the registry, the active (RESERVED or CONFIRMED) attempt count
is bounded by `bookedCount`, which is bounded by `capacity`. -/
def CapInv (st : EngineState) : Prop :=
  ∀ id sl, findSlot st.slots id = some sl →
    activeCount st.bookings id ≤ sl.bookedCount ∧ sl.bookedCount ≤ sl.capacity

/-- The uniqueness invariant: at most one non-terminal attempt per
`(userId, slotId)` pair. -/
def UniqInv (st : EngineState) : Prop :=
  ∀ u s, openCount st.bookings u s ≤ 1

/-- A sample slot: id 1, window [50, 100), capacity 2, nothing booked. -/
def slotA : Slot := ⟨1, 50, 100, 2, 0⟩

/-- A sample initial state holding only `slotA`. -/
def st0A : EngineState := ⟨[slotA], [], [], 0⟩

/-- The state after user 7 claims slot 1 at time 10 with TTL 5. -/
def stB : EngineState := (claim st0A 10 7 1 5).2

/-- A sample state holding one EXPIRED (terminal) booking. -/
def stT : EngineState := ⟨[], [⟨0, 1, 2, .expired, 0, 10⟩], [], 1⟩

/-- A sample state whose only slot has its capacity exhausted. -/
def stC : EngineState := ⟨[⟨2, 0, 100, 1, 1⟩], [], [], 0⟩

theorem updateFirst_of_find?_none {α : Type} {q : α → Bool} {f : α → α} {l : List α}
    (h : l.find? q = none) : updateFirst q f l = l := by
  induction l with
  | nil => rfl
  | cons x xs ih =>
    cases hqx : q x with
    | true => simp [List.find?_cons, hqx] at h
    | false =>
      simp only [List.find?_cons, hqx] at h
      simp [updateFirst, hqx, ih h]

theorem find?_updateFirst_self {α : Type} {q : α → Bool} {f : α → α} {l : List α}
    {b : α} (h : l.find? q = some b) (hf : q (f b) = true) :
    (updateFirst q f l).find? q = some (f b) := by
  induction l with
  | nil => simp [List.find?] at h
  | cons x xs ih =>
    cases hqx : q x with
    | true =>
      simp only [List.find?_cons, hqx] at h
      cases h
      simp [updateFirst, hqx, List.find?_cons, hf]
    | false =>
      simp only [List.find?_cons, hqx] at h
      simp [updateFirst, hqx, List.find?_cons, ih h]

theorem find?_updateFirst_other {α : Type} {q q' : α → Bool} {f : α → α} {l : List α}
    (hpres : ∀ x, q' (f x) = q' x) (hdisj : ∀ x, q x = true → q' x = false) :
    (updateFirst q f l).find? q' = l.find? q' := by
  induction l with
  | nil => rfl
  | cons x xs ih =>
    cases hqx : q x with
    | true =>
      have hx' : q' x = false := hdisj x hqx
      simp [updateFirst, hqx, List.find?_cons, hpres x, hx']
    | false =>
      cases hq'x : q' x with
      | true => simp [updateFirst, hqx, List.find?_cons, hq'x]
      | false => simp [updateFirst, hqx, List.find?_cons, hq'x, ih]

theorem countP_updateFirst {α : Type} {q : α → Bool} {f : α → α} {p : α → Bool}
    {l : List α} {b : α} (h : l.find? q = some b) :
    (updateFirst q f l).countP p + (if p b then 1 else 0) =
      l.countP p + (if p (f b) then 1 else 0) := by
  induction l with
  | nil => simp [List.find?] at h
  | cons x xs ih =>
    cases hqx : q x with
    | true =>
      simp only [List.find?_cons, hqx] at h
      cases h
      simp only [updateFirst, hqx, if_true, List.countP_cons]
      omega
    | false =>
      simp only [List.find?_cons, hqx] at h
      simp only [updateFirst, hqx, Bool.false_eq_true, if_false, List.countP_cons]
      have := ih h
      omega

theorem find?_append_left {α : Type} {p : α → Bool} {l l' : List α} {b : α}
    (h : l.find? p = some b) : (l ++ l').find? p = some b := by
  induction l with
  | nil => simp [List.find?] at h
  | cons x xs ih =>
    cases hpx : p x with
    | true =>
      simp only [List.find?_cons, hpx] at h
      cases h
      simp [List.find?_cons, hpx]
    | false =>
      simp only [List.find?_cons, hpx] at h
      simp [List.find?_cons, hpx, ih h]

theorem countP_eq_zero_of_find?_none {α : Type} {p : α → Bool} {l : List α}
    (h : l.find? p = none) : l.countP p = 0 := by
  rw [List.countP_eq_zero]
  intro a ha
  exact List.find?_eq_none.mp h a ha

theorem findSlot_slotId {slots : List Slot} {id : Nat} {sl : Slot}
    (h : findSlot slots id = some sl) : sl.slotId = id := by
  have := List.find?_some h
  simpa [slotMatch] using this

theorem findBooking_bookingId {bs : List Booking} {bid : Nat} {b : Booking}
    (h : findBooking bs bid = some b) : b.bookingId = bid := by
  have := List.find?_some h
  simpa [bookingMatch] using this

theorem findActive_props {bs : List Booking} {u s : Nat} {b : Booking}
    (h : findActive bs u s = some b) :
    b.userId = u ∧ b.slotId = s ∧ b.status.isTerminal = false := by
  have := List.find?_some h
  simp only [isOpenAttempt, Bool.and_eq_true, decide_eq_true_eq,
    Bool.not_eq_true'] at this
  exact ⟨this.1.1, this.1.2, this.2⟩

theorem isActive_of_status {b : Booking}
    (h : b.status = .reserved ∨ b.status = .confirmed) :
    isActive b.slotId b = true := by
  simp only [isActive, decide_eq_true_eq]
  refine ⟨by simp, h⟩

theorem isActive_of_ne {id : Nat} {b : Booking} (h : b.slotId ≠ id) :
    isActive id b = false := by
  simp only [isActive, decide_eq_false_iff_not]
  exact fun hc => h hc.1

theorem isActive_of_terminal {id : Nat} {b : Booking}
    (h : b.status.isTerminal = true) : isActive id b = false := by
  simp only [isActive, decide_eq_false_iff_not]
  rintro ⟨-, h2 | h2⟩ <;> rw [h2] at h <;> simp [BookingStatus.isTerminal] at h

theorem activeCount_setStatus (bs : List Booking) (bid : Nat) (b : Booking)
    (τ : BookingStatus) (id : Nat) (hb : findBooking bs bid = some b) :
    activeCount (setStatus bs bid τ) id + (if isActive id b then 1 else 0) =
      activeCount bs id + (if isActive id { b with status := τ } then 1 else 0) :=
  countP_updateFirst hb

theorem openCount_setStatus (bs : List Booking) (bid : Nat) (b : Booking)
    (τ : BookingStatus) (u s : Nat) (hb : findBooking bs bid = some b) :
    openCount (setStatus bs bid τ) u s + (if isOpenAttempt u s b then 1 else 0) =
      openCount bs u s + (if isOpenAttempt u s { b with status := τ } then 1 else 0) :=
  countP_updateFirst hb

theorem findSlot_updateFirst_self {slots : List Slot} {s : Nat} {f : Slot → Slot}
    {sl : Slot} (hpres : ∀ x, (f x).slotId = x.slotId)
    (h : findSlot slots s = some sl) :
    findSlot (updateFirst (slotMatch s) f slots) s = some (f sl) :=
  find?_updateFirst_self h
    (by simp [slotMatch, hpres, findSlot_slotId h])

theorem findSlot_updateFirst_other {slots : List Slot} {s id : Nat} {f : Slot → Slot}
    (hpres : ∀ x, (f x).slotId = x.slotId) (hne : id ≠ s) :
    findSlot (updateFirst (slotMatch s) f slots) id = findSlot slots id :=
  find?_updateFirst_other
    (by intro x; simp [slotMatch, hpres])
    (by
      intro x hx
      simp only [slotMatch, decide_eq_true_eq] at hx
      simp only [slotMatch, decide_eq_false_iff_not]
      omega)

theorem findSlot_releaseCapacity_self {slots : List Slot} {s : Nat} {sl : Slot}
    (h : findSlot slots s = some sl) :
    findSlot (releaseCapacity slots s) s =
      some { sl with bookedCount := sl.bookedCount - 1 } :=
  findSlot_updateFirst_self (fun _ => rfl) h

theorem findSlot_releaseCapacity_other {slots : List Slot} {s id : Nat}
    (hne : id ≠ s) : findSlot (releaseCapacity slots s) id = findSlot slots id :=
  findSlot_updateFirst_other (fun _ => rfl) hne

theorem releaseCapacity_of_none {slots : List Slot} {s : Nat}
    (h : findSlot slots s = none) : releaseCapacity slots s = slots :=
  updateFirst_of_find?_none h

theorem isOpenAttempt_of_terminal {u s : Nat} {b : Booking}
    (h : b.status.isTerminal = true) : isOpenAttempt u s b = false := by
  simp [isOpenAttempt, h]

theorem claim_capInv (st : EngineState) (now u s ttl : Nat) (h : CapInv st) :
    CapInv (claim st now u s ttl).2 := by
  unfold claim
  split
  · exact h
  · next hfa =>
    split
    · exact h
    · next sl hsl =>
      split_ifs with hend hfull
      · exact h
      · exact h
      · intro id sl' hfind
        dsimp only at hfind
        by_cases hid : id = s
        · subst hid
          rw [findSlot_updateFirst_self
            (f := fun x => { x with bookedCount := x.bookedCount + 1 })
            (fun x => rfl) hsl] at hfind
          injection hfind with hfind
          subst hfind
          have h0 := h id sl hsl
          show activeCount (st.bookings ++
            [⟨st.nextId, u, id, .reserved, now, now + ttl⟩]) id ≤
              sl.bookedCount + 1 ∧ sl.bookedCount + 1 ≤ sl.capacity
          unfold activeCount
          rw [List.countP_append]
          have h1 : List.countP (isActive id)
              [⟨st.nextId, u, id, .reserved, now, now + ttl⟩] = 1 := by
            simp [isActive]
          unfold activeCount at h0
          omega
        · rw [findSlot_updateFirst_other
            (f := fun x => { x with bookedCount := x.bookedCount + 1 })
            (fun x => rfl) hid] at hfind
          have h0 := h id sl' hfind
          show activeCount (st.bookings ++
            [⟨st.nextId, u, s, .reserved, now, now + ttl⟩]) id ≤
              sl'.bookedCount ∧ sl'.bookedCount ≤ sl'.capacity
          unfold activeCount
          rw [List.countP_append]
          have h1 : List.countP (isActive id)
              [⟨st.nextId, u, s, .reserved, now, now + ttl⟩] = 0 := by
            simp [isActive]
            omega
          unfold activeCount at h0
          omega

theorem claim_uniqInv (st : EngineState) (now u s ttl : Nat) (h : UniqInv st) :
    UniqInv (claim st now u s ttl).2 := by
  unfold claim
  split
  · exact h
  · next hfa =>
    split
    · exact h
    · next sl hsl =>
      split_ifs with hend hfull
      · exact h
      · exact h
      · intro u' s'
        show List.countP (isOpenAttempt u' s') (st.bookings ++
          [⟨st.nextId, u, s, .reserved, now, now + ttl⟩]) ≤ 1
        rw [List.countP_append]
        by_cases hus : u' = u ∧ s' = s
        · obtain ⟨rfl, rfl⟩ := hus
          have h0 : openCount st.bookings u' s' = 0 :=
            countP_eq_zero_of_find?_none hfa
          unfold openCount at h0
          have h1 : List.countP (isOpenAttempt u' s')
              [⟨st.nextId, u', s', .reserved, now, now + ttl⟩] ≤ 1 := by
            rw [List.countP_cons, List.countP_nil]
            split <;> omega
          omega
        · have h1 : List.countP (isOpenAttempt u' s')
              [⟨st.nextId, u, s, .reserved, now, now + ttl⟩] = 0 := by
            simp [isOpenAttempt, BookingStatus.isTerminal]
            intro h2 h3
            exact absurd ⟨h2.symm, h3.symm⟩ hus
          have h0 := h u' s'
          unfold openCount at h0
          omega

theorem capRelTerm {st : EngineState} {bid : Nat} {b : Booking} {τ : BookingStatus}
    (hterm : τ.isTerminal = true)
    (hb : findBooking st.bookings bid = some b)
    (hact : b.status = .reserved ∨ b.status = .confirmed)
    (h : CapInv st) :
    ∀ id sl', findSlot (releaseCapacity st.slots b.slotId) id = some sl' →
      activeCount (setStatus st.bookings bid τ) id ≤ sl'.bookedCount ∧
        sl'.bookedCount ≤ sl'.capacity := by
  intro id sl' hfind
  have hcnt := activeCount_setStatus st.bookings bid b τ id hb
  have hτfalse : isActive id { b with status := τ } = false := isActive_of_terminal hterm
  by_cases hid : id = b.slotId
  · subst hid
    cases hsl : findSlot st.slots b.slotId with
    | none =>
      rw [releaseCapacity_of_none hsl, hsl] at hfind
      exact Option.noConfusion hfind
    | some sl0 =>
      rw [findSlot_releaseCapacity_self hsl] at hfind
      injection hfind with hfind
      subst hfind
      have hAb : isActive b.slotId b = true := isActive_of_status hact
      rw [hAb, hτfalse] at hcnt
      simp at hcnt
      have h0 := h b.slotId sl0 hsl
      show activeCount (setStatus st.bookings bid τ) b.slotId ≤ sl0.bookedCount - 1 ∧
        sl0.bookedCount - 1 ≤ sl0.capacity
      omega
  · rw [findSlot_releaseCapacity_other hid] at hfind
    have h0 := h id sl' hfind
    have hAb : isActive id b = false := isActive_of_ne (fun hc => hid hc.symm)
    rw [hAb, hτfalse] at hcnt
    simp at hcnt
    omega

theorem promoteLoop_capInv (now s ttl : Nat) :
    ∀ (n : Nat) (st : EngineState), CapInv st → CapInv (promoteLoop n st now s ttl) := by
  intro n
  induction n with
  | zero => intro st h; exact h
  | succ n ih =>
    intro st h
    unfold promoteLoop
    split
    · exact h
    · next e rest heq =>
      have h1 : CapInv { st with queue := rest } := h
      split
      · exact claim_capInv { st with queue := rest } now e.userId s ttl h1
      · exact ih _ (claim_capInv { st with queue := rest } now e.userId s ttl h1)

theorem promoteLoop_uniqInv (now s ttl : Nat) :
    ∀ (n : Nat) (st : EngineState), UniqInv st → UniqInv (promoteLoop n st now s ttl) := by
  intro n
  induction n with
  | zero => intro st h; exact h
  | succ n ih =>
    intro st h
    unfold promoteLoop
    split
    · exact h
    · next e rest heq =>
      have h1 : UniqInv { st with queue := rest } := h
      split
      · exact claim_uniqInv { st with queue := rest } now e.userId s ttl h1
      · exact ih _ (claim_uniqInv { st with queue := rest } now e.userId s ttl h1)

theorem expireRelease_capInv {st : EngineState} {b : Booking} (now ttl : Nat)
    (hb : findBooking st.bookings b.bookingId = some b)
    (hact : b.status = .reserved ∨ b.status = .confirmed)
    (h : CapInv st) : CapInv (expireRelease st now ttl b) := by
  unfold expireRelease promote
  exact promoteLoop_capInv now b.slotId ttl _ _ (capRelTerm rfl hb hact h)

theorem himp_of_terminal {b : Booking} {τ : BookingStatus} (hterm : τ.isTerminal = true) :
    ∀ u s, isOpenAttempt u s { b with status := τ } = true →
      isOpenAttempt u s b = true := by
  intro u s hx
  rw [isOpenAttempt_of_terminal hterm] at hx
  exact Bool.noConfusion hx

theorem himp_confirm {b : Booking} (hres : b.status = .reserved) :
    ∀ u s, isOpenAttempt u s { b with status := .confirmed } = true →
      isOpenAttempt u s b = true := by
  intro u s hx
  simp only [isOpenAttempt, Bool.and_eq_true, decide_eq_true_eq,
    Bool.not_eq_true'] at hx ⊢
  exact ⟨hx.1, by rw [hres]; rfl⟩

theorem uniqInv_setStatus_le {st : EngineState} {bid : Nat} {b : Booking}
    {τ : BookingStatus} (hb : findBooking st.bookings bid = some b)
    (himp : ∀ u s, isOpenAttempt u s { b with status := τ } = true →
      isOpenAttempt u s b = true)
    (h : UniqInv st) : ∀ u s, openCount (setStatus st.bookings bid τ) u s ≤ 1 := by
  intro u s
  have hcnt := openCount_setStatus st.bookings bid b τ u s hb
  have h0 := h u s
  cases e2 : isOpenAttempt u s { b with status := τ } with
  | true =>
    have e1 := himp u s e2
    rw [e1, e2] at hcnt
    simp at hcnt
    omega
  | false =>
    rw [e2] at hcnt
    cases e1 : isOpenAttempt u s b <;> rw [e1] at hcnt <;> simp at hcnt <;> omega

theorem expireRelease_uniqInv {st : EngineState} {b : Booking} (now ttl : Nat)
    (hb : findBooking st.bookings b.bookingId = some b)
    (h : UniqInv st) : UniqInv (expireRelease st now ttl b) := by
  unfold expireRelease promote
  exact promoteLoop_uniqInv now b.slotId ttl _ _
    (uniqInv_setStatus_le hb (himp_of_terminal rfl) h)

theorem confirm_capInv (st : EngineState) (now bid ttl : Nat) (h : CapInv st) :
    CapInv (confirm st now bid ttl).2 := by
  unfold confirm
  split
  · exact h
  · next b hb =>
    split_ifs with hres hexp
    · exact expireRelease_capInv now ttl
        (by rw [findBooking_bookingId hb]; exact hb) (.inl hres) h
    · intro id sl' hfind
      dsimp only at hfind ⊢
      have h0 := h id sl' hfind
      have hcnt := activeCount_setStatus st.bookings bid b .confirmed id hb
      by_cases hid : b.slotId = id
      · have e1 : isActive id b = true := by
          rw [← hid]; exact isActive_of_status (.inl hres)
        have e2 : isActive id { b with status := .confirmed } = true := by
          rw [← hid]
          exact isActive_of_status (b := { b with status := .confirmed }) (.inr rfl)
        rw [e1, e2] at hcnt
        simp at hcnt
        omega
      · have e1 : isActive id b = false := isActive_of_ne hid
        have e2 : isActive id { b with status := .confirmed } = false :=
          isActive_of_ne hid
        rw [e1, e2] at hcnt
        simp at hcnt
        omega
    · exact h

theorem confirm_uniqInv (st : EngineState) (now bid ttl : Nat) (h : UniqInv st) :
    UniqInv (confirm st now bid ttl).2 := by
  unfold confirm
  split
  · exact h
  · next b hb =>
    split_ifs with hres hexp
    · exact expireRelease_uniqInv now ttl
        (by rw [findBooking_bookingId hb]; exact hb) h
    · exact uniqInv_setStatus_le hb (himp_confirm hres) h
    · exact h

theorem cancel_capInv (st : EngineState) (now bid ttl : Nat) (h : CapInv st) :
    CapInv (cancel st now bid ttl).2 := by
  unfold cancel
  split
  · exact h
  · next b hb =>
    by_cases hconf : b.status = .confirmed
    · rw [if_pos hconf]
      split
      · exact h
      · next sl hsl =>
        split_ifs with hstart
        · exact h
        · show CapInv (promote
            { st with
                bookings := setStatus st.bookings bid .cancelled,
                slots := releaseCapacity st.slots b.slotId } now b.slotId ttl)
          unfold promote
          exact promoteLoop_capInv now b.slotId ttl _ _
            (capRelTerm rfl hb (.inr hconf) h)
    · rw [if_neg hconf]; exact h

theorem cancel_uniqInv (st : EngineState) (now bid ttl : Nat) (h : UniqInv st) :
    UniqInv (cancel st now bid ttl).2 := by
  unfold cancel
  split
  · exact h
  · next b hb =>
    by_cases hconf : b.status = .confirmed
    · rw [if_pos hconf]
      split
      · exact h
      · next sl hsl =>
        split_ifs with hstart
        · exact h
        · show UniqInv (promote
            { st with
                bookings := setStatus st.bookings bid .cancelled,
                slots := releaseCapacity st.slots b.slotId } now b.slotId ttl)
          unfold promote
          exact promoteLoop_uniqInv now b.slotId ttl _ _
            (uniqInv_setStatus_le hb (himp_of_terminal rfl) h)
    · rw [if_neg hconf]; exact h

theorem sweep_capInv (st : EngineState) (now bid ttl : Nat) (h : CapInv st) :
    CapInv (sweepExpire st now bid ttl).2 := by
  unfold sweepExpire
  split
  · exact h
  · next b hb =>
    split_ifs with hg
    · exact expireRelease_capInv now ttl
        (by rw [findBooking_bookingId hb]; exact hb) (.inl hg.1) h
    · exact h

theorem sweep_uniqInv (st : EngineState) (now bid ttl : Nat) (h : UniqInv st) :
    UniqInv (sweepExpire st now bid ttl).2 := by
  unfold sweepExpire
  split
  · exact h
  · next b hb =>
    split_ifs with hg
    · exact expireRelease_uniqInv now ttl
        (by rw [findBooking_bookingId hb]; exact hb) h
    · exact h

theorem complete_capInv (st : EngineState) (now bid : Nat) (h : CapInv st) :
    CapInv (complete st now bid).2 := by
  unfold complete
  split
  · exact h
  · next b hb =>
    by_cases hconf : b.status = .confirmed
    · rw [if_pos hconf]
      split
      · exact h
      · next sl hsl =>
        split_ifs with hend
        · intro id sl' hfind
          dsimp only at hfind ⊢
          have h0 := h id sl' hfind
          have hcnt := activeCount_setStatus st.bookings bid b .completed id hb
          have e2 : isActive id { b with status := .completed } = false :=
            isActive_of_terminal rfl
          rw [e2] at hcnt
          cases e1 : isActive id b <;> rw [e1] at hcnt <;> simp at hcnt <;> omega
        · exact h
    · rw [if_neg hconf]; exact h

theorem complete_uniqInv (st : EngineState) (now bid : Nat) (h : UniqInv st) :
    UniqInv (complete st now bid).2 := by
  unfold complete
  split
  · exact h
  · next b hb =>
    by_cases hconf : b.status = .confirmed
    · rw [if_pos hconf]
      split
      · exact h
      · next sl hsl =>
        split_ifs with hend
        · exact uniqInv_setStatus_le hb (himp_of_terminal rfl) h
        · exact h
    · rw [if_neg hconf]; exact h

theorem step_capInv {st st' : EngineState} (h : CapInv st) (hs : Step st st') :
    CapInv st' := by
  cases hs with
  | claimStep now u s ttl => exact claim_capInv st now u s ttl h
  | confirmStep now bid ttl => exact confirm_capInv st now bid ttl h
  | cancelStep now bid ttl => exact cancel_capInv st now bid ttl h
  | sweepStep now bid ttl => exact sweep_capInv st now bid ttl h
  | completeStep now bid => exact complete_capInv st now bid h

theorem step_uniqInv {st st' : EngineState} (h : UniqInv st) (hs : Step st st') :
    UniqInv st' := by
  cases hs with
  | claimStep now u s ttl => exact claim_uniqInv st now u s ttl h
  | confirmStep now bid ttl => exact confirm_uniqInv st now bid ttl h
  | cancelStep now bid ttl => exact cancel_uniqInv st now bid ttl h
  | sweepStep now bid ttl => exact sweep_uniqInv st now bid ttl h
  | completeStep now bid => exact complete_uniqInv st now bid h

theorem reachable_capInv {st0 st : EngineState} (h0 : InitOk st0)
    (h : Reachable st0 st) : CapInv st := by
  induction h with
  | refl =>
    intro id sl hfind
    obtain ⟨hbk, hq, hbc⟩ := h0
    constructor
    · rw [hbk]
      simp [activeCount]
    · have hmem : sl ∈ st0.slots := List.mem_of_find?_eq_some hfind
      rw [hbc sl hmem]
      exact Nat.zero_le _
  | step hr hs ih => exact step_capInv ih hs

theorem reachable_uniqInv {st0 st : EngineState} (h0 : InitOk st0)
    (h : Reachable st0 st) : UniqInv st := by
  induction h with
  | refl =>
    intro u s
    obtain ⟨hbk, hq, hbc⟩ := h0
    rw [hbk]
    simp [openCount]
  | step hr hs ih => exact step_uniqInv ih hs

theorem activeCount_eq_statusCounts (bs : List Booking) (id : Nat) :
    activeCount bs id = statusCount bs id .reserved + statusCount bs id .confirmed := by
  induction bs with
  | nil => rfl
  | cons b bs ih =>
    unfold activeCount statusCount at ih ⊢
    rw [List.countP_cons, List.countP_cons, List.countP_cons, ih]
    have hsplit : (if isActive id b then 1 else 0) =
        (if decide (b.slotId = id ∧ b.status = BookingStatus.reserved) then 1 else 0) +
          (if decide (b.slotId = id ∧ b.status = BookingStatus.confirmed) then 1 else 0) := by
      by_cases h1 : b.slotId = id
      · cases hs : b.status <;> simp [isActive, h1, hs]
      · simp [isActive, h1]
    omega

/-- C1: in every reachable state, for every slot in the registry, the number
of CONFIRMED plus RESERVED Booking Attempts never exceeds the slot's
capacity, and `bookedCount` stays between 0 and capacity. -/
theorem capacity_invariant (st0 st : EngineState) (h0 : InitOk st0)
    (h : Reachable st0 st) (id : Nat) (sl : Slot)
    (hsl : findSlot st.slots id = some sl) :
    statusCount st.bookings id .confirmed + statusCount st.bookings id .reserved ≤
      sl.capacity ∧
    0 ≤ sl.bookedCount ∧ sl.bookedCount ≤ sl.capacity := by
  have hc := reachable_capInv h0 h id sl hsl
  have he := activeCount_eq_statusCounts st.bookings id
  omega

theorem capacity_invariant_witness :
    statusCount st0A.bookings 1 .confirmed + statusCount st0A.bookings 1 .reserved ≤
      slotA.capacity ∧
    0 ≤ slotA.bookedCount ∧ slotA.bookedCount ≤ slotA.capacity :=
  capacity_invariant st0A st0A ⟨rfl, rfl, by decide⟩ (.refl st0A) 1 slotA (by decide)

/-- C2: every transition attempted on a Booking Attempt whose status is
terminal is rejected and leaves the state unchanged; confirm and cancel
report InvalidTransition, never silently succeeding. -/
theorem terminal_transitions_rejected (st : EngineState) (now bid ttl : Nat)
    (b : Booking) (hb : findBooking st.bookings bid = some b)
    (ht : b.status.isTerminal = true) :
    confirm st now bid ttl = (.invalidTransition, st) ∧
    cancel st now bid ttl = (.invalidTransition, st) ∧
    sweepExpire st now bid ttl = (.skipped, st) ∧
    complete st now bid = (.skipped, st) := by
  have h1 : ¬ b.status = .reserved := by
    intro he; rw [he] at ht; simp [BookingStatus.isTerminal] at ht
  have h2 : ¬ b.status = .confirmed := by
    intro he; rw [he] at ht; simp [BookingStatus.isTerminal] at ht
  refine ⟨?_, ?_, ?_, ?_⟩
  · simp only [confirm, hb]
    rw [if_neg h1]
  · simp only [cancel, hb]
    rw [if_neg h2]
  · simp only [sweepExpire, hb]
    rw [if_neg (fun hc => h1 hc.1)]
  · simp only [complete, hb]
    rw [if_neg h2]

theorem terminal_transitions_rejected_witness :
    confirm stT 5 0 7 = (.invalidTransition, stT) ∧
    cancel stT 5 0 7 = (.invalidTransition, stT) ∧
    sweepExpire stT 5 0 7 = (.skipped, stT) ∧
    complete stT 5 0 = (.skipped, stT) :=
  terminal_transitions_rejected stT 5 0 7 ⟨0, 1, 2, .expired, 0, 10⟩
    (by decide) (by decide)

/-- C3: in every reachable state at most one non-terminal Booking Attempt
exists per (userId, slotId), and a claim while one exists returns that same
attempt (same bookingId and expiry) leaving the state unchanged. -/
theorem claim_idempotent_unique (st0 st : EngineState) (h0 : InitOk st0)
    (h : Reachable st0 st) :
    (∀ u s, openCount st.bookings u s ≤ 1) ∧
    (∀ now u s ttl b, findActive st.bookings u s = some b →
      claim st now u s ttl = (.reserved b.bookingId b.expiresAt, st)) := by
  refine ⟨reachable_uniqInv h0 h, ?_⟩
  intro now u s ttl b hfa
  simp only [claim, hfa]

theorem claim_idempotent_unique_witness :
    claim stB 12 7 1 5 = (.reserved 0 15, stB) :=
  (claim_idempotent_unique st0A stB ⟨rfl, rfl, by decide⟩
    (.step (.refl st0A) (.claimStep st0A 10 7 1 5))).2 12 7 1 5
    ⟨0, 7, 1, .reserved, 10, 15⟩ (by decide)

theorem mem_insertEntry (e : QueueEntry) (l : List QueueEntry) :
    e ∈ insertEntry e l := by
  induction l with
  | nil => simp [insertEntry]
  | cons x xs ih =>
    unfold insertEntry
    by_cases hc : (decide (x.slotId = e.slotId) && decide (e.joinedAt < x.joinedAt)) = true
    · rw [if_pos hc]; exact List.mem_cons_self _ _
    · rw [if_neg hc]; exact List.mem_cons_of_mem x ih

/-- C4: a claim on a live slot whose capacity is exhausted (the only form of
contention in the model, where the registry reservation serializes the hold)
enqueues the caller and returns a Queued position — never an error. -/
theorem contention_queued (st : EngineState) (now u s ttl : Nat) (sl : Slot)
    (hna : findActive st.bookings u s = none)
    (hsl : findSlot st.slots s = some sl)
    (hlive : now < sl.endTime)
    (hfull : sl.capacity ≤ sl.bookedCount) :
    claim st now u s ttl =
      (.queued (queuePos (enqueue st.queue s u now) s u),
        { st with queue := enqueue st.queue s u now }) ∧
    u ∈ queuedUsers (enqueue st.queue s u now) s := by
  constructor
  · simp only [claim, hna, hsl]
    rw [if_neg (by omega), if_pos hfull]
  · unfold enqueue
    by_cases hdup : st.queue.any (fun e => decide (e.slotId = s ∧ e.userId = u)) = true
    · rw [if_pos hdup]
      simp only [List.any_eq_true, decide_eq_true_eq] at hdup
      obtain ⟨e, he, hes, heu⟩ := hdup
      unfold queuedUsers
      rw [List.mem_map]
      refine ⟨e, ?_, heu⟩
      rw [List.mem_filter]
      exact ⟨he, by simp [hes]⟩
    · rw [if_neg hdup]
      unfold queuedUsers
      rw [List.mem_map]
      refine ⟨⟨s, u, now⟩, ?_, rfl⟩
      rw [List.mem_filter]
      exact ⟨mem_insertEntry _ _, by simp⟩

theorem contention_queued_witness :
    claim stC 3 9 2 4 = (.queued 1, { stC with queue := [⟨2, 9, 3⟩] }) ∧
    9 ∈ queuedUsers [⟨2, 9, 3⟩] 2 :=
  contention_queued stC 3 9 2 4 ⟨2, 0, 100, 1, 1⟩
    (by decide) (by decide) (by decide) (by decide)

theorem claim_bookings_extends (st : EngineState) (now u s ttl : Nat) :
    ∃ extra, (claim st now u s ttl).2.bookings = st.bookings ++ extra := by
  unfold claim
  split
  · exact ⟨[], by simp⟩
  · next hfa =>
    split
    · exact ⟨[], by simp⟩
    · next sl hsl =>
      split_ifs with hend hfull
      · exact ⟨[], by simp⟩
      · exact ⟨[], by simp⟩
      · exact ⟨[⟨st.nextId, u, s, .reserved, now, now + ttl⟩], by simp⟩

theorem promoteLoop_bookings_extends (now s ttl : Nat) :
    ∀ (n : Nat) (st : EngineState),
      ∃ extra, (promoteLoop n st now s ttl).bookings = st.bookings ++ extra := by
  intro n
  induction n with
  | zero => intro st; exact ⟨[], by simp [promoteLoop]⟩
  | succ n ih =>
    intro st
    unfold promoteLoop
    split
    · exact ⟨[], by simp⟩
    · next e rest heq =>
      split
      · obtain ⟨ex, hex⟩ :=
          claim_bookings_extends { st with queue := rest } now e.userId s ttl
        exact ⟨ex, hex⟩
      · obtain ⟨ex1, hex1⟩ :=
          claim_bookings_extends { st with queue := rest } now e.userId s ttl
        obtain ⟨ex2, hex2⟩ :=
          ih (claim { st with queue := rest } now e.userId s ttl).2
        refine ⟨ex1 ++ ex2, ?_⟩
        rw [hex2, hex1]
        simp

/-- C5: confirming a RESERVED attempt at `expiresAt ≤ now` returns Expired
(not Confirmed), transitions the booking to EXPIRED, and produces exactly the
state the Scheduler's expiration sweep would; confirm succeeds only while
`now < expiresAt`. -/
theorem confirm_after_ttl (st : EngineState) (now bid ttl : Nat) (b : Booking)
    (hb : findBooking st.bookings bid = some b)
    (hres : b.status = .reserved) :
    (b.expiresAt ≤ now →
      confirm st now bid ttl = (.expired, (sweepExpire st now bid ttl).2) ∧
      findBooking (confirm st now bid ttl).2.bookings bid =
        some { b with status := .expired }) ∧
    ((confirm st now bid ttl).1 = .confirmed → now < b.expiresAt) := by
  constructor
  · intro hexp
    have hcfm : confirm st now bid ttl = (.expired, expireRelease st now ttl b) := by
      simp only [confirm, hb]
      rw [if_pos hres, if_pos hexp]
    have hswp : sweepExpire st now bid ttl = (.expired, expireRelease st now ttl b) := by
      simp only [sweepExpire, hb]
      rw [if_pos ⟨hres, hexp⟩]
    refine ⟨by rw [hcfm, hswp], ?_⟩
    rw [hcfm]
    have hbid := findBooking_bookingId hb
    subst hbid
    have hset : findBooking (setStatus st.bookings b.bookingId .expired)
        b.bookingId = some { b with status := .expired } :=
      find?_updateFirst_self hb (by simp [bookingMatch])
    show findBooking (expireRelease st now ttl b).bookings b.bookingId =
      some { b with status := .expired }
    unfold expireRelease promote
    obtain ⟨ex, hex⟩ := promoteLoop_bookings_extends now b.slotId ttl
      ({ st with
          bookings := setStatus st.bookings b.bookingId .expired,
          slots := releaseCapacity st.slots b.slotId }).queue.length
      { st with
          bookings := setStatus st.bookings b.bookingId .expired,
          slots := releaseCapacity st.slots b.slotId }
    unfold findBooking
    rw [hex]
    exact find?_append_left hset
  · intro hc
    by_cases hexp : b.expiresAt ≤ now
    · have : (confirm st now bid ttl).1 = .expired := by
        simp only [confirm, hb]
        rw [if_pos hres, if_pos hexp]
      rw [this] at hc
      exact ConfirmResult.noConfusion hc
    · omega

theorem confirm_after_ttl_witness :
    (confirm stB 20 0 5 = (.expired, (sweepExpire stB 20 0 5).2) ∧
      findBooking (confirm stB 20 0 5).2.bookings 0 =
        some ⟨0, 7, 1, .expired, 10, 15⟩) ∧
    ((confirm stB 20 0 5).1 = .confirmed → 20 < 15) := by
  have h := confirm_after_ttl stB 20 0 5 ⟨0, 7, 1, .reserved, 10, 15⟩
    (by decide) rfl
  exact ⟨h.1 (by decide), h.2⟩

theorem not_slot_of_queuedUsers_nil {q : List QueueEntry} {s : Nat}
    (h : queuedUsers q s = []) : ∀ x ∈ q, x.slotId ≠ s := by
  intro x hx hc
  unfold queuedUsers at h
  rw [List.map_eq_nil_iff] at h
  have := List.filter_eq_nil_iff.mp h x hx
  simp [hc] at this

theorem insertEntry_append_of_not_slot {l : List QueueEntry} {e : QueueEntry}
    (h : ∀ x ∈ l, x.slotId ≠ e.slotId) : insertEntry e l = l ++ [e] := by
  induction l with
  | nil => rfl
  | cons x xs ih =>
    have hx : x.slotId ≠ e.slotId := h x (List.mem_cons_self x xs)
    unfold insertEntry
    rw [if_neg (by simp [hx])]
    rw [ih (fun y hy => h y (List.mem_cons_of_mem x hy))]
    simp

theorem insertEntry_append_last {l : List QueueEntry} {e x : QueueEntry}
    (h : ∀ y ∈ l, y.slotId ≠ e.slotId)
    (hcond : (decide (x.slotId = e.slotId) && decide (e.joinedAt < x.joinedAt)) = false) :
    insertEntry e (l ++ [x]) = l ++ [x, e] := by
  induction l with
  | nil =>
    simp only [List.nil_append]
    unfold insertEntry
    rw [if_neg (by simp [hcond])]
    rfl
  | cons y ys ih =>
    have hy : y.slotId ≠ e.slotId := h y (List.mem_cons_self y ys)
    simp only [List.cons_append]
    unfold insertEntry
    rw [if_neg (by simp [hy])]
    rw [ih (fun z hz => h z (List.mem_cons_of_mem y hz))]

theorem enqueue_fresh {q : List QueueEntry} {s u t : Nat}
    (h : ∀ x ∈ q, x.slotId ≠ s) : enqueue q s u t = q ++ [⟨s, u, t⟩] := by
  unfold enqueue
  have ha : ¬ (q.any (fun e => decide (e.slotId = s ∧ e.userId = u)) = true) := by
    simp only [List.any_eq_true, decide_eq_true_eq]
    rintro ⟨x, hx, hxs, -⟩
    exact h x hx hxs
  rw [if_neg ha]
  exact insertEntry_append_of_not_slot (fun x hx => h x hx)

theorem dequeueFront_past_other_slots {s : Nat} (l : List QueueEntry)
    (e : QueueEntry) (r : List QueueEntry)
    (h : ∀ x ∈ l, x.slotId ≠ s) (he : e.slotId = s) :
    dequeueFront (l ++ e :: r) s = some (e, l ++ r) := by
  induction l with
  | nil => simp [dequeueFront, he]
  | cons x xs ih =>
    have hx : x.slotId ≠ s := h x (List.mem_cons_self x xs)
    simp only [List.cons_append]
    unfold dequeueFront
    rw [if_neg (by simp [hx])]
    rw [ih (fun y hy => h y (List.mem_cons_of_mem x hy))]

theorem queuedUsers_append (a b : List QueueEntry) (s : Nat) :
    queuedUsers (a ++ b) s = queuedUsers a s ++ queuedUsers b s := by
  simp [queuedUsers, List.filter_append]

/-- C7: starting from a slot with an empty Wait Queue, two distinct users
joining at times t1 < t2 stand in the per-slot queue in that order, and the
promotion routine's exclusive `dequeueFront` pops the t1 user first and the
t2 user second — arrival order, never priority. -/
theorem fifo_fairness (q0 : List QueueEntry) (s u1 u2 t1 t2 : Nat)
    (hempty : queuedUsers q0 s = []) (hlt : t1 < t2) (hne : u1 ≠ u2) :
    queuedUsers (enqueue (enqueue q0 s u1 t1) s u2 t2) s = [u1, u2] ∧
    ∃ r1, dequeueFront (enqueue (enqueue q0 s u1 t1) s u2 t2) s =
        some (⟨s, u1, t1⟩, r1) ∧
      dequeueFront r1 s = some (⟨s, u2, t2⟩, q0) := by
  have hno : ∀ x ∈ q0, x.slotId ≠ s := not_slot_of_queuedUsers_nil hempty
  have h1 : enqueue q0 s u1 t1 = q0 ++ [⟨s, u1, t1⟩] := enqueue_fresh hno
  have h2 : enqueue (q0 ++ [⟨s, u1, t1⟩]) s u2 t2 = q0 ++ [⟨s, u1, t1⟩, ⟨s, u2, t2⟩] := by
    unfold enqueue
    have ha : ¬ ((q0 ++ [(⟨s, u1, t1⟩ : QueueEntry)]).any
        (fun e => decide (e.slotId = s ∧ e.userId = u2)) = true) := by
      simp only [List.any_eq_true, decide_eq_true_eq]
      rintro ⟨x, hx, hxs, hxu⟩
      rw [List.mem_append] at hx
      cases hx with
      | inl hx => exact hno x hx hxs
      | inr hx =>
        simp at hx
        rw [hx] at hxu
        exact hne hxu
    rw [if_neg ha]
    exact insertEntry_append_last (fun y hy => hno y hy)
      (by simp; omega)
  rw [h1, h2]
  refine ⟨?_, q0 ++ [⟨s, u2, t2⟩], ?_, ?_⟩
  · rw [queuedUsers_append]
    rw [hempty]
    simp [queuedUsers]
  · exact dequeueFront_past_other_slots q0 ⟨s, u1, t1⟩ [⟨s, u2, t2⟩] hno rfl
  · have := dequeueFront_past_other_slots q0 ⟨s, u2, t2⟩ [] hno rfl
    rw [List.append_nil] at this
    exact this

theorem fifo_fairness_witness :
    queuedUsers (enqueue (enqueue [⟨5, 3, 0⟩] 2 8 4) 2 9 6) 2 = [8, 9] ∧
    ∃ r1, dequeueFront (enqueue (enqueue [⟨5, 3, 0⟩] 2 8 4) 2 9 6) 2 =
        some (⟨2, 8, 4⟩, r1) ∧
      dequeueFront r1 2 = some (⟨2, 9, 6⟩, [⟨5, 3, 0⟩]) :=
  fifo_fairness [⟨5, 3, 0⟩] 2 8 9 4 6 (by decide) (by decide) (by decide)

end Engine

namespace SlotService

/-- C6 counterexample: after `addSlot('')` the state
`['Slot 1', 'Slot 2', 'Slot 3', '']` is reachable, index 3 is present
(it holds the stored slot `''`), yet `getSlotById` returns the NotFound
sentinel because JavaScript `||` treats the empty string as falsy. -/
theorem getSlotById_counterexample :
    SlotsReachable (addSlot initialSlots ("")).2 ∧
    (addSlot initialSlots ("")).2.get? 3 = some "" ∧
    getSlotById (addSlot initialSlots ("")).2 3 = "Slot not found" :=
  ⟨SlotsReachable.add _ _ SlotsReachable.init, by decide, by decide⟩

/-- C6 (amended): `getSlotById` returns the stored slot whenever the id is
present and the stored name is non-empty; the NotFound sentinel is returned
exactly when the id is absent, the stored name is the empty string (falsy
under `||`), or the stored name is itself the sentinel text. -/
theorem getSlotById_amended (slots : List String) (id : Nat) :
    (∀ s, slots.get? id = some s → s ≠ "" → getSlotById slots id = s) ∧
    (getSlotById slots id = "Slot not found" ↔
      (slots.get? id = none ∨ slots.get? id = some "" ∨
        slots.get? id = some "Slot not found")) := by
  constructor
  · intro s hs hne
    unfold getSlotById jsOrElse
    rw [hs]
    show (if s = "" then "Slot not found" else s) = s
    exact if_neg hne
  · unfold getSlotById jsOrElse
    cases hs : slots.get? id with
    | none => simp
    | some s =>
      by_cases he : s = ""
      · subst he
        simp
      · simp [he]

theorem getSlotById_amended_witness :
    getSlotById ["a"] 0 = "a" ∧
    getSlotById ["a"] 5 = "Slot not found" ∧
    getSlotById [""] 0 = "Slot not found" :=
  ⟨(getSlotById_amended ["a"] 0).1 ("a") rfl (by decide),
   (getSlotById_amended ["a"] 5).2.mpr (.inl rfl),
   (getSlotById_amended [""] 0).2.mpr (.inr (.inl rfl))⟩

/-- C8: `addSlot name` returns `name`, and afterwards `getAllSlots` is the
previous list with `name` appended: length grows by one and every previously
stored slot is unchanged at its index. -/
theorem addSlot_spec (slots : List String) (name : String) :
    (addSlot slots name).1 = name ∧
    getAllSlots (addSlot slots name).2 = getAllSlots slots ++ [name] ∧
    (addSlot slots name).2.length = slots.length + 1 ∧
    ∀ i, i < slots.length → (addSlot slots name).2.get? i = slots.get? i := by
  refine ⟨rfl, rfl, by simp [addSlot], ?_⟩
  intro i hi
  show (slots ++ [name]).get? i = slots.get? i
  rw [List.get?_eq_getElem?, List.get?_eq_getElem?]
  exact List.getElem?_append_left hi

theorem addSlot_spec_witness :
    (addSlot ["x"] "y").2.get? 0 = some "x" :=
  (addSlot_spec ["x"] "y").2.2.2 0 (by decide)

/-- C9: the admin endpoints `createSlot`, `updateSlot` and `deleteSlot` each
return a fixed constant string and leave the slot list unchanged — they
invoke no mutation on the registry. -/
theorem adminStubs_constant (slots : List String) :
    createSlot slots = ("This action creates a new slot", slots) ∧
    updateSlot slots = ("This action updates a slot", slots) ∧
    deleteSlot slots = ("This action deletes a slot", slots) :=
  ⟨rfl, rfl, rfl⟩

/-- C10: the queue endpoints `joinQueue`, `leaveQueue` and `getQueuePosition`
return the empty string for every slotId and request, change no state, and
yield identical results for any two inputs. -/
theorem queueStubs_constant {σ ρ : Type} (st : σ) (slotId slotId' : String)
    (req req' : ρ) :
    joinQueue slotId req st = ("", st) ∧
    leaveQueue slotId req st = ("", st) ∧
    getQueuePosition slotId req st = ("", st) ∧
    (joinQueue slotId req st).1 = (joinQueue slotId' req' st).1 ∧
    (leaveQueue slotId req st).1 = (leaveQueue slotId' req' st).1 ∧
    (getQueuePosition slotId req st).1 = (getQueuePosition slotId' req' st).1 :=
  ⟨rfl, rfl, rfl, rfl, rfl, rfl⟩

end SlotService
